import Mathlib

/-!
Verification of the game-logic core of the reactor-core repository
(src/App.jsx): the deck generator, the bounded breadth-first-search
minimum-move solver, the level-initialization retry loop, and the
card-application / undo state updates.

The embedding is shallow: JavaScript numbers that hold integers become
Int (or Nat for counters that never go negative in the source), the
string-keyed visited Set becomes a Finset Int (integer-to-string
conversion is injective, so the keys are in bijection with the integers
stored), and the while-loop of the search is expressed with an explicit
fuel parameter that is proved large enough.  Randomness (Math.random
draws and the random sort comparator) is modelled by explicit
parameters: the result of each floor(random * n) draw, the coin for the
third card's kind, and the permutation the shuffle applies.  Rendering,
audio, animation timing and localStorage persistence are out of scope;
presentation-only card fields (id, symbol, name, ariaLabel) are omitted
from the Card structure.
-/

namespace ReactorCore

/-- Kind of a card: matter adds its value, antimatter subtracts it
(src/App.jsx, generateDeck). -/
inductive CardType where
  | matter : CardType
  | antimatter : CardType
deriving DecidableEq, Repr

/-- A card as produced by generateDeck; presentation-only fields
(id, symbol, name, ariaLabel) are omitted. -/
structure Card where
  type : CardType
  value : Int
deriving DecidableEq, Repr

/-- Signed delta of a card: `card.type === 'antimatter' ? -card.value :
card.value` (src/App.jsx lines 169 and 251). -/
def delta (c : Card) : Int :=
  if c.type = CardType.antimatter then -c.value else c.value

/-- The three cards built by generateDeck before the shuffle
(src/App.jsx lines 154-158): first forced antimatter, second forced
matter, third matter exactly when the coin draw `Math.random() > 0.5`
is true.  `r1 r2 r3` stand for the draws `Math.floor(Math.random() *
maxVal)`, so theorems assume `ri < min (lvl / 2 + 3) 5`. -/
def deckCards (r1 r2 r3 : Nat) (coin : Bool) : Fin 3 → Card :=
  ![⟨CardType.antimatter, (r1 : Int) + 1⟩,
    ⟨CardType.matter, (r2 : Int) + 1⟩,
    ⟨if coin then CardType.matter else CardType.antimatter, (r3 : Int) + 1⟩]

/-- generateDeck (src/App.jsx lines 142-160).  The level determines the
magnitude cap `maxVal = min (lvl / 2 + 3) 5` that scales the random
draws (captured by the hypotheses `ri < maxVal` in the theorems), and
`σ` is the permutation applied by `cards.sort(() => Math.random() -
0.5)` — per the ECMAScript specification a sort always returns a
permutation of its input, with implementation-defined order for an
inconsistent comparator. -/
def generateDeck (lvl r1 r2 r3 : Nat) (coin : Bool) (σ : Fin 3 → Fin 3) : List Card :=
  let _maxVal : Nat := min (lvl / 2 + 3) 5
  [deckCards r1 r2 r3 coin (σ 0), deckCards r1 r2 r3 coin (σ 1),
    deckCards r1 r2 r3 coin (σ 2)]

/-- Inner for-loop of calculateMinMoves (src/App.jsx lines 168-175):
for each card compute `next = current + delta`; if `next` is unvisited,
within the magnitude bound, and fewer than 8 moves were used, mark it
visited and push it at the back of the queue. -/
def expandCards (target current : Int) (moves : Nat) :
    List Card → List (Int × Nat) × Finset Int → List (Int × Nat) × Finset Int
  | [], qv => qv
  | card :: cs, qv =>
    let next := current + delta card
    if next ∉ qv.2 ∧ |next| ≤ |target| + 15 ∧ moves < 8 then
      expandCards target current moves cs
        (qv.1 ++ [(next, moves + 1)], insert next qv.2)
    else
      expandCards target current moves cs qv

/-- While-loop of calculateMinMoves (src/App.jsx lines 165-176), with a
fuel parameter standing in for the loop guard: `none` means the fuel
ran out (proved never to happen for the fuel used below), `some 1` is
the queue-exhausted fallback of line 177, `some moves` the result of
line 167. -/
def bfsAux (target : Int) (deck : List Card) :
    Nat → List (Int × Nat) → Finset Int → Option Nat
  | 0, _, _ => none
  | _ + 1, [], _ => some 1
  | fuel + 1, (current, moves) :: rest, visited =>
    if current = target then some moves
    else
      let r := expandCards target current moves deck (rest, visited)
      bfsAux target deck fuel r.1 r.2

/-- Fuel that is provably sufficient for the search: one more than
twice the size of the interval of values the bound admits (each loop
iteration removes a queue entry, and each queue entry corresponds to a
distinct admissible value marked visited). -/
def searchFuel (target : Int) : Nat :=
  2 * (2 * (target.natAbs + 15) + 1) + 1

/-- calculateMinMoves (src/App.jsx lines 162-178): breadth-first search
from sum 0 with the queue seeded with `(0, 0)` and the visited set with
`0`. -/
def calculateMinMoves (target : Int) (deck : List Card) : Nat :=
  (bfsAux target deck (searchFuel target) [(0, 0)] ({0} : Finset Int)).getD 1

/-- Attempt loop of initLevel (src/App.jsx lines 187-192): a do-while
that regenerates the deck while the solver result exceeds 6 and fewer
than 20 attempts were made.  `ds i` is the deck produced by the i-th
call of generateDeck (the stream models the fresh randomness of each
attempt); the loop is entered at `i = 0`. -/
def initLoop (target : Int) (ds : Nat → List Card) (i : Nat) : List Card × Nat :=
  if h : 6 < calculateMinMoves target (ds i) ∧ i + 1 < 20 then
    initLoop target ds (i + 1)
  else
    (ds i, calculateMinMoves target (ds i))
termination_by 20 - i
decreasing_by omega

/-- Game state mutated while playing a level.  Only the fields the game
logic reads or writes are modelled; screen selection, scores and the
animation bookkeeping lists are presentation state.  `isAnimating` is
kept because handleCardClick and handleUndo consult it. -/
structure GameState where
  leftConstant : Int
  rightValue : Int
  deck : List Card
  minMoves : Nat
  moves : Int
  moveHistory : List Card
  undoAvailable : Int
  isAnimating : Bool
deriving Repr

/-- initLevel (src/App.jsx lines 180-207).  `rb` and `rs` model the
draws `Math.floor(Math.random() * (maxVal * 2))` for the offset and the
solution, `ds` the stream of generated decks. -/
def initLevel (lvl rb rs : Nat) (ds : Nat → List Card) : GameState :=
  let maxVal : Nat := min 5 (lvl / 2 + 3)
  let b : Int := (rb : Int) - (maxVal : Int)
  let solution : Int := (rs : Int) - (maxVal : Int)
  let c : Int := solution + b
  let r := initLoop (-b) ds 0
  { leftConstant := b
    rightValue := c
    deck := r.1
    minMoves := r.2
    moves := 0
    moveHistory := []
    undoAvailable := 1
    isAnimating := false }

/-- Net committed effect of handleCardClick (src/App.jsx lines
209-277): refused while animating; otherwise the move counter is
incremented, the card is appended to the history (line 220), and the
card's signed delta is added to both sides (lines 251-254).  The
animation flag is set during the timeout chain and cleared at commit
time (line 260), so the settled state has it false. -/
def applyCard (s : GameState) (c : Card) : GameState :=
  if s.isAnimating then s
  else
    { s with
      moves := s.moves + 1
      moveHistory := s.moveHistory ++ [c]
      leftConstant := s.leftConstant + delta c
      rightValue := s.rightValue + delta c
      isAnimating := false }

/-- handleUndo (src/App.jsx lines 279-289): refused when the history is
empty, an animation is running, or no undo budget remains; otherwise
the negated delta of the last history entry is added to both sides, the
move counter and the undo budget are decremented, and the last history
entry is dropped. -/
def handleUndo (s : GameState) : GameState :=
  match s.moveHistory.getLast? with
  | none => s
  | some last =>
    if s.isAnimating ∨ s.undoAvailable ≤ 0 then s
    else
      let d := if last.type = CardType.antimatter then last.value else -last.value
      { s with
        leftConstant := s.leftConstant + d
        rightValue := s.rightValue + d
        moves := s.moves - 1
        undoAvailable := s.undoAvailable - 1
        moveHistory := s.moveHistory.dropLast }

/-- One expansion layer of the search graph: all sums `v + delta c` for
`v` in `s` and `c` in the deck (specification-side abstraction of the
inner for-loop). -/
def stepSet (deck : List Card) (s : Finset Int) : Finset Int :=
  deck.foldr (fun c acc => s.image (fun v => v + delta c) ∪ acc) ∅

/-- Values reachable from 0 in at most `k` card applications with every
intermediate sum within the magnitude bound `|target| + 15`
(specification-side layered reachability). -/
def reachSet (target : Int) (deck : List Card) : Nat → Finset Int
  | 0 => {0}
  | k + 1 =>
    reachSet target deck k ∪
      (stepSet deck (reachSet target deck k)).filter (fun v => |v| ≤ |target| + 15)

instance (target : Int) (deck : List Card) :
    DecidablePred (fun k : Nat => target ∈ reachSet target deck k) :=
  fun _ => inferInstance

instance (target : Int) (deck : List Card) :
    Decidable (∃ k, k ≤ 8 ∧ target ∈ reachSet target deck k) :=
  inferInstance

/-- Specification of the solver: the least number of moves `k ≤ 8` at
which the target becomes reachable within the bound, and the fallback 1
when there is none. -/
def specMinMoves (target : Int) (deck : List Card) : Nat :=
  if h : ∃ k, k ≤ 8 ∧ target ∈ reachSet target deck k then Nat.find h else 1

/-- Sum of the signed deltas of a list of cards. -/
def sumDeltas (p : List Card) : Int := (p.map delta).sum

/-- A play sequence admissible for the bounded search: every card is
drawn from the deck (repetition allowed) and every partial sum stays
within the magnitude bound `|target| + 15`. -/
def okPath (target : Int) (deck : List Card) (p : List Card) : Prop :=
  (∀ c ∈ p, c ∈ deck) ∧
    ∀ k, k ≤ p.length → |sumDeltas (p.take k)| ≤ |target| + 15

instance (target : Int) (deck : List Card) (p : List Card) :
    Decidable (okPath target deck p) := by
  unfold okPath; exact inferInstance

/-- Admissible values of the search: the interval the magnitude bound
allows (used for the termination measure of the loop). -/
def boundSet (target : Int) : Finset Int :=
  Finset.Icc (-(|target| + 15)) (|target| + 15)

/-- Termination measure of the search loop: queue entries still to be
processed plus twice the admissible values not yet visited. -/
def queueMeasure (target : Int) (queue : List (Int × Nat)) (visited : Finset Int) : Nat :=
  2 * ((boundSet target).card - visited.card) + queue.length

/-- Loop invariant of the breadth-first search, at the moment the queue
is `qa ++ qb`: `qa` holds the still-unprocessed entries of the current
depth `m0` (each a value of minimal depth exactly `m0`), `qb` the
entries already discovered at depth `m0 + 1` (exactly the in-bound
neighbors of the depth-`≤ m0` values already dequeued that are not
themselves of depth `≤ m0`), the visited set is the depth-`m0`
reachability set together with the values parked in `qb`, queue values
are pairwise distinct, no entry at depth 8 is ever expanded, and the
target has not been dequeued yet. -/
def InvCore (target : Int) (deck : List Card) (m0 : Nat)
    (qa qb : List (Int × Nat)) (visited : Finset Int) : Prop :=
  (∀ e ∈ qa, e.2 = m0) ∧
  (∀ e ∈ qb, e.2 = m0 + 1) ∧
  m0 ≤ 8 ∧
  ((qa ++ qb).map Prod.fst).Nodup ∧
  visited = reachSet target deck m0 ∪ (qb.map Prod.fst).toFinset ∧
  (∀ x ∈ qa.map Prod.fst, x ∈ reachSet target deck m0 ∧
    ∀ j < m0, x ∉ reachSet target deck j) ∧
  (target ∈ reachSet target deck m0 → target ∈ qa.map Prod.fst) ∧
  (m0 < 8 →
    (qb.map Prod.fst).toFinset =
      (stepSet deck
          (reachSet target deck m0 \ (qa.map Prod.fst).toFinset)).filter
        (fun x => |x| ≤ |target| + 15) \ reachSet target deck m0) ∧
  (m0 = 8 → qb = [])

/-- A concrete card used to instantiate universally quantified theorems. -/
def sampleCard : Card := ⟨CardType.matter, 2⟩

/-- A concrete mid-game state (one move played, undo still available)
used to instantiate universally quantified theorems. -/
def sampleState : GameState :=
  { leftConstant := 3
    rightValue := 7
    deck := []
    minMoves := 0
    moves := 1
    moveHistory := [sampleCard]
    undoAvailable := 1
    isAnimating := false }

/-! Theorems.  First the deck generator (claims C4 and C5), then the
state updates (claims C8 and C9), then the level-initialization loop
(claim C7), and finally the solver (claims C1, C2, C3, C6, C10). -/

lemma fin3_perm_of_injective :
    ∀ σ : Fin 3 → Fin 3, Function.Injective σ →
      ([σ 0, σ 1, σ 2]).Perm [0, 1, 2] := by
  decide

lemma deckCards_value_bounds (lvl r1 r2 r3 : Nat) (coin : Bool)
    (h1 : r1 < min (lvl / 2 + 3) 5) (h2 : r2 < min (lvl / 2 + 3) 5)
    (h3 : r3 < min (lvl / 2 + 3) 5) :
    ∀ j : Fin 3, 1 ≤ (deckCards r1 r2 r3 coin j).value ∧
      (deckCards r1 r2 r3 coin j).value ≤ ((min (lvl / 2 + 3) 5 : Nat) : Int) := by
  intro j
  fin_cases j <;> simp [deckCards] <;> omega

/-- C4: for every level `lvl ≥ 1` (and valid random draws, which are
below the magnitude cap by construction of `Math.random`), the
generated deck has exactly 3 cards and every card magnitude lies in
`[1, min (lvl / 2 + 3) 5]`. -/
theorem generateDeck_length_and_bounds (lvl r1 r2 r3 : Nat) (coin : Bool)
    (σ : Fin 3 → Fin 3) (hlvl : 1 ≤ lvl)
    (h1 : r1 < min (lvl / 2 + 3) 5) (h2 : r2 < min (lvl / 2 + 3) 5)
    (h3 : r3 < min (lvl / 2 + 3) 5) :
    (generateDeck lvl r1 r2 r3 coin σ).length = 3 ∧
      ∀ c ∈ generateDeck lvl r1 r2 r3 coin σ,
        1 ≤ c.value ∧ c.value ≤ ((min (lvl / 2 + 3) 5 : Nat) : Int) := by
  refine ⟨rfl, ?_⟩
  intro c hc
  have key := deckCards_value_bounds lvl r1 r2 r3 coin h1 h2 h3
  simp only [generateDeck, List.mem_cons, List.not_mem_nil, or_false] at hc
  rcases hc with h | h | h <;> subst h <;> exact key _

theorem generateDeck_length_and_bounds_witness :
    (generateDeck 1 0 1 2 true id).length = 3 ∧
      ∀ c ∈ generateDeck 1 0 1 2 true id,
        1 ≤ c.value ∧ c.value ≤ ((min (1 / 2 + 3) 5 : Nat) : Int) :=
  generateDeck_length_and_bounds 1 0 1 2 true id (by decide) (by decide)
    (by decide) (by decide)

/-- C5: for every level and every outcome of the random source, the
returned deck is a permutation of the three constructed cards (the
shuffle drops and duplicates nothing), hence it contains at least one
Matter and at least one Antimatter card. -/
theorem generateDeck_kinds (lvl r1 r2 r3 : Nat) (coin : Bool)
    (σ : Fin 3 → Fin 3) (hσ : Function.Bijective σ) :
    (generateDeck lvl r1 r2 r3 coin σ).Perm
        [deckCards r1 r2 r3 coin 0, deckCards r1 r2 r3 coin 1,
          deckCards r1 r2 r3 coin 2] ∧
      (∃ c ∈ generateDeck lvl r1 r2 r3 coin σ, c.type = CardType.matter) ∧
      ∃ c ∈ generateDeck lvl r1 r2 r3 coin σ, c.type = CardType.antimatter := by
  have hperm := fin3_perm_of_injective σ hσ.injective
  have hmap := hperm.map (deckCards r1 r2 r3 coin)
  have hgd : generateDeck lvl r1 r2 r3 coin σ =
      List.map (deckCards r1 r2 r3 coin) [σ 0, σ 1, σ 2] := rfl
  refine ⟨by rw [hgd]; exact hmap, ?_, ?_⟩
  · refine ⟨deckCards r1 r2 r3 coin 1, ?_, rfl⟩
    rw [hgd, (hmap.mem_iff (a := deckCards r1 r2 r3 coin 1))]
    simp
  · refine ⟨deckCards r1 r2 r3 coin 0, ?_, rfl⟩
    rw [hgd, (hmap.mem_iff (a := deckCards r1 r2 r3 coin 0))]
    simp

theorem generateDeck_kinds_witness :
    (∃ c ∈ generateDeck 1 0 1 2 false id, c.type = CardType.matter) ∧
      ∃ c ∈ generateDeck 1 0 1 2 false id, c.type = CardType.antimatter :=
  (generateDeck_kinds 1 0 1 2 false id Function.bijective_id).2

lemma neg_delta_eq (e : Card) :
    (if e.type = CardType.antimatter then e.value else -e.value) = -delta e := by
  rcases e with ⟨ty, v⟩
  cases ty <;> simp [delta]

/-- C8: a committed card application adds the card's signed delta to
both leftConstant and rightValue, a fired undo adds the negated delta
of the last history entry to both, and in every case (including the
refused ones, which leave the state unchanged) the difference
`rightValue - leftConstant` is preserved. -/
theorem card_moves_preserve_difference (s : GameState) (c : Card) :
    (s.isAnimating = false →
      (applyCard s c).leftConstant = s.leftConstant + delta c ∧
        (applyCard s c).rightValue = s.rightValue + delta c) ∧
    (∀ e, s.moveHistory.getLast? = some e → s.isAnimating = false →
        0 < s.undoAvailable →
      (handleUndo s).leftConstant = s.leftConstant + -delta e ∧
        (handleUndo s).rightValue = s.rightValue + -delta e) ∧
    (applyCard s c).rightValue - (applyCard s c).leftConstant
        = s.rightValue - s.leftConstant ∧
    (handleUndo s).rightValue - (handleUndo s).leftConstant
        = s.rightValue - s.leftConstant := by
  refine ⟨?_, ?_, ?_, ?_⟩
  · intro h
    simp [applyCard, h]
  · intro e he hanim hu
    have hno : ¬(s.isAnimating = true ∨ s.undoAvailable ≤ 0) := by
      rw [hanim]; simp; omega
    simp only [handleUndo, he, if_neg hno]
    rw [neg_delta_eq]
    exact ⟨rfl, rfl⟩
  · unfold applyCard
    split
    · rfl
    · simp
  · rcases hg : s.moveHistory.getLast? with _ | e
    · simp only [handleUndo, hg]
    · simp only [handleUndo, hg]
      by_cases hcond : s.isAnimating = true ∨ s.undoAvailable ≤ 0
      · rw [if_pos hcond]
      · rw [if_neg hcond]
        simp

theorem card_moves_preserve_difference_witness :
    ((applyCard sampleState sampleCard).leftConstant
        = sampleState.leftConstant + delta sampleCard ∧
      (applyCard sampleState sampleCard).rightValue
        = sampleState.rightValue + delta sampleCard) ∧
      (handleUndo sampleState).leftConstant
          = sampleState.leftConstant + -delta sampleCard ∧
        (handleUndo sampleState).rightValue
          = sampleState.rightValue + -delta sampleCard :=
  ⟨(card_moves_preserve_difference sampleState sampleCard).1 rfl,
    (card_moves_preserve_difference sampleState sampleCard).2.1 sampleCard
      rfl rfl (by decide)⟩

/-- C9: undoing the most recent committed application restores
leftConstant, rightValue and the move counter; the undo budget starts
at 1 when a level is initialized, every fired undo decrements it, and
undo is refused (the state is returned unchanged) when the budget is
exhausted or the history is empty. -/
theorem undo_roundtrip_budget (s : GameState) (c : Card) :
    (s.isAnimating = false → 0 < s.undoAvailable →
      (handleUndo (applyCard s c)).leftConstant = s.leftConstant ∧
        (handleUndo (applyCard s c)).rightValue = s.rightValue ∧
        (handleUndo (applyCard s c)).moves = s.moves) ∧
    (∀ lvl rb rs ds, (initLevel lvl rb rs ds).undoAvailable = 1) ∧
    (s.moveHistory ≠ [] → s.isAnimating = false → 0 < s.undoAvailable →
      (handleUndo s).undoAvailable = s.undoAvailable - 1) ∧
    (s.undoAvailable ≤ 0 ∨ s.moveHistory = [] → handleUndo s = s) := by
  refine ⟨?_, fun lvl rb rs ds => rfl, ?_, ?_⟩
  · intro hanim hu
    have happ : applyCard s c =
        { s with
          moves := s.moves + 1
          moveHistory := s.moveHistory ++ [c]
          leftConstant := s.leftConstant + delta c
          rightValue := s.rightValue + delta c
          isAnimating := false } := by
      simp [applyCard, hanim]
    rw [happ]
    simp only [handleUndo, List.getLast?_concat]
    rw [neg_delta_eq]
    simp only [if_neg (show ¬(false = true ∨ s.undoAvailable ≤ 0) by simp; omega)]
    refine ⟨by simp, by simp, by simp⟩
  · intro hne hanim hu
    obtain ⟨e, he⟩ := Option.isSome_iff_exists.mp (List.getLast?_isSome.mpr hne)
    have hno : ¬(s.isAnimating = true ∨ s.undoAvailable ≤ 0) := by
      rw [hanim]; simp; omega
    simp only [handleUndo, he, if_neg hno]
  · intro h
    rcases h with h | h
    · rcases hg : s.moveHistory.getLast? with _ | e
      · simp [handleUndo, hg]
      · simp [handleUndo, hg, h]
    · simp [handleUndo, List.getLast?_eq_none_iff.mpr h]

theorem undo_roundtrip_budget_witness :
    ((handleUndo (applyCard sampleState sampleCard)).leftConstant
        = sampleState.leftConstant ∧
      (handleUndo (applyCard sampleState sampleCard)).rightValue
        = sampleState.rightValue ∧
      (handleUndo (applyCard sampleState sampleCard)).moves
        = sampleState.moves) ∧
      (initLevel 1 0 0 (fun _ => [])).undoAvailable = 1 ∧
      (handleUndo sampleState).undoAvailable = sampleState.undoAvailable - 1 :=
  ⟨(undo_roundtrip_budget sampleState sampleCard).1 rfl (by decide),
    (undo_roundtrip_budget sampleState sampleCard).2.1 1 0 0 (fun _ => []),
    (undo_roundtrip_budget sampleState sampleCard).2.2.1 (by decide) rfl
      (by decide)⟩

lemma initLoop_eq_of_first (target : Int) (ds : Nat → List Card) :
    ∀ n i j, j - i ≤ n → i ≤ j → j < 20 →
      calculateMinMoves target (ds j) ≤ 6 →
      (∀ k, i ≤ k → k < j → 6 < calculateMinMoves target (ds k)) →
      initLoop target ds i = (ds j, calculateMinMoves target (ds j)) := by
  intro n
  induction n with
  | zero =>
    intro i j hn hij hj hopt _
    have hij' : i = j := by omega
    subst hij'
    rw [initLoop, dif_neg (by omega)]
  | succ n ih =>
    intro i j hn hij hj hopt hall
    by_cases hij' : i = j
    · subst hij'
      rw [initLoop, dif_neg (by omega)]
    · have hi : 6 < calculateMinMoves target (ds i) :=
        hall i le_rfl (by omega)

      rw [initLoop, dif_pos ⟨hi, by omega⟩]
      exact ih (i + 1) j (by omega) (by omega) hj hopt
        (fun k hk1 hk2 => hall k (by omega) hk2)

lemma initLoop_eq_of_none (target : Int) (ds : Nat → List Card) :
    ∀ n i, 19 - i ≤ n → i < 20 →
      (∀ k, i ≤ k → k < 20 → 6 < calculateMinMoves target (ds k)) →
      initLoop target ds i = (ds 19, calculateMinMoves target (ds 19)) := by
  intro n
  induction n with
  | zero =>
    intro i hn hi _
    have : i = 19 := by omega
    subst this
    rw [initLoop, dif_neg (by omega)]
  | succ n ih =>
    intro i hn hi hall
    by_cases hi' : i = 19
    · subst hi'
      rw [initLoop, dif_neg (by omega)]
    · rw [initLoop, dif_pos ⟨hall i le_rfl hi, by omega⟩]
      exact ih (i + 1) (by omega) (by omega)
        (fun k hk1 hk2 => hall k (by omega) hk2)

lemma initLoop_congr (target : Int) (ds ds' : Nat → List Card)
    (h : ∀ k, k < 20 → ds k = ds' k) :
    ∀ n i, 19 - i ≤ n → i < 20 →
      initLoop target ds i = initLoop target ds' i := by
  intro n
  induction n with
  | zero =>
    intro i hn hi
    have : i = 19 := by omega
    subst this
    rw [initLoop, h 19 (by omega), dif_neg (fun hc => absurd hc.2 (by omega))]
    conv_rhs => rw [initLoop]
    rw [dif_neg (fun hc => absurd hc.2 (by omega))]
  | succ n ih =>
    intro i hn hi
    by_cases hi' : i = 19
    · subst hi'
      rw [initLoop, h 19 (by omega), dif_neg (fun hc => absurd hc.2 (by omega))]
      conv_rhs => rw [initLoop]
      rw [dif_neg (fun hc => absurd hc.2 (by omega))]
    · rw [initLoop, h i hi]
      conv_rhs => rw [initLoop]
      by_cases hc : 6 < calculateMinMoves target (ds' i) ∧ i + 1 < 20
      · rw [dif_pos hc, dif_pos hc]
        exact ih (i + 1) (by omega) hc.2
      · rw [dif_neg hc, dif_neg hc]

/-- C7: the level initializer consults only the first 20 generated
decks, keeps the first one whose solver result is at most 6, keeps the
20th attempt's deck when no attempt meets the bound, and initLevel
itself runs this loop with target `-b` and installs the resulting deck
and solver value without any failure signal. -/
theorem initLevel_attempt_loop (target : Int) (ds : Nat → List Card) :
    (∀ ds' : Nat → List Card, (∀ k, k < 20 → ds k = ds' k) →
      initLoop target ds 0 = initLoop target ds' 0) ∧
    (∀ j, j < 20 → calculateMinMoves target (ds j) ≤ 6 →
      (∀ k, k < j → 6 < calculateMinMoves target (ds k)) →
      initLoop target ds 0 = (ds j, calculateMinMoves target (ds j))) ∧
    ((∀ k, k < 20 → 6 < calculateMinMoves target (ds k)) →
      initLoop target ds 0 = (ds 19, calculateMinMoves target (ds 19))) ∧
    ∀ lvl rb rs,
      (initLevel lvl rb rs ds).deck =
          (initLoop (-((rb : Int) - ((min 5 (lvl / 2 + 3) : Nat) : Int))) ds 0).1 ∧
        (initLevel lvl rb rs ds).minMoves =
          (initLoop (-((rb : Int) - ((min 5 (lvl / 2 + 3) : Nat) : Int))) ds 0).2 := by
  refine ⟨?_, ?_, ?_, fun lvl rb rs => ⟨rfl, rfl⟩⟩
  · intro ds' hagree
    exact initLoop_congr target ds ds' hagree 19 0 (by omega) (by omega)
  · intro j hj hopt hall
    exact initLoop_eq_of_first target ds j 0 j (by omega) (by omega) hj hopt
      (fun k _ hk2 => hall k hk2)
  · intro hall
    exact initLoop_eq_of_none target ds 19 0 (by omega) (by omega)
      (fun k _ hk2 => hall k hk2)

theorem initLevel_attempt_loop_witness :
    initLoop 0 (fun _ => []) 0 = ([], 0) :=
  (initLevel_attempt_loop 0 (fun _ => [])).2.1 0 (by omega) (by decide)
    (fun k hk => absurd hk (Nat.not_lt_zero k))

/-! Solver correctness.  The queue-based search of calculateMinMoves is
related to the layered reachability sets reachSet, and through them to
the admissible play sequences okPath. -/

lemma mem_stepSet {deck : List Card} {s : Finset Int} {x : Int} :
    x ∈ stepSet deck s ↔ ∃ c ∈ deck, ∃ v ∈ s, x = v + delta c := by
  induction deck with
  | nil => simp [stepSet]
  | cons c cs ih =>
    simp only [stepSet, List.foldr_cons] at ih ⊢
    simp only [Finset.mem_union, Finset.mem_image, ih, List.mem_cons]
    constructor
    · rintro (⟨v, hv, rfl⟩ | ⟨c', hc', v, hv, rfl⟩)
      · exact ⟨c, Or.inl rfl, v, hv, rfl⟩
      · exact ⟨c', Or.inr hc', v, hv, rfl⟩
    · rintro ⟨c', hc' | hc', v, hv, rfl⟩
      · exact Or.inl ⟨v, hv, by rw [hc']⟩
      · exact Or.inr ⟨c', hc', v, hv, rfl⟩

lemma stepSet_mono {deck : List Card} {s t : Finset Int} (h : s ⊆ t) :
    stepSet deck s ⊆ stepSet deck t := by
  intro x hx
  rw [mem_stepSet] at hx ⊢
  obtain ⟨c, hc, v, hv, rfl⟩ := hx
  exact ⟨c, hc, v, h hv, rfl⟩

lemma reachSet_zero (target : Int) (deck : List Card) :
    reachSet target deck 0 = {0} := rfl

lemma reachSet_succ (target : Int) (deck : List Card) (k : Nat) :
    reachSet target deck (k + 1) =
      reachSet target deck k ∪
        (stepSet deck (reachSet target deck k)).filter
          (fun v => |v| ≤ |target| + 15) := rfl

lemma reachSet_subset_succ (target : Int) (deck : List Card) (k : Nat) :
    reachSet target deck k ⊆ reachSet target deck (k + 1) := by
  rw [reachSet_succ]
  exact Finset.subset_union_left

lemma reachSet_mono (target : Int) (deck : List Card) {k l : Nat} (h : k ≤ l) :
    reachSet target deck k ⊆ reachSet target deck l := by
  induction l with
  | zero =>
    have : k = 0 := by omega
    subst this; exact subset_rfl
  | succ l ih =>
    rcases Nat.lt_or_ge k (l + 1) with h' | h'
    · exact (ih (by omega)).trans (reachSet_subset_succ target deck l)
    · have : k = l + 1 := by omega
      subst this; exact subset_rfl

lemma abs_le_of_mem_reachSet {target : Int} {deck : List Card} {k : Nat}
    {v : Int} (h : v ∈ reachSet target deck k) : |v| ≤ |target| + 15 := by
  induction k with
  | zero =>
    rw [reachSet_zero] at h
    simp only [Finset.mem_singleton] at h
    subst h
    simp only [abs_zero]
    positivity
  | succ k ih =>
    rw [reachSet_succ] at h
    rcases Finset.mem_union.mp h with h | h
    · exact ih h
    · exact (Finset.mem_filter.mp h).2

lemma mem_boundSet {target v : Int} :
    v ∈ boundSet target ↔ |v| ≤ |target| + 15 := by
  rw [boundSet, Finset.mem_Icc, abs_le]

lemma reachSet_subset_boundSet (target : Int) (deck : List Card) (k : Nat) :
    reachSet target deck k ⊆ boundSet target := by
  intro v hv
  exact mem_boundSet.mpr (abs_le_of_mem_reachSet hv)

lemma reachSet_stab (target : Int) (deck : List Card) {k : Nat}
    (h : reachSet target deck (k + 1) = reachSet target deck k) :
    ∀ j, k ≤ j → reachSet target deck j = reachSet target deck k := by
  intro j hj
  induction j with
  | zero =>
    have : k = 0 := by omega
    subst this; rfl
  | succ j ih =>
    rcases Nat.lt_or_ge k (j + 1) with h' | h'
    · have hjk : k ≤ j := by omega
      have hij := ih hjk
      rw [reachSet_succ, hij, ← reachSet_succ, h]
    · have : k = j + 1 := by omega
      subst this; rfl

lemma map_add_toFinset_eq_stepSet (deck : List Card) (v : Int) :
    (deck.map (fun c => v + delta c)).toFinset = stepSet deck {v} := by
  ext x
  rw [List.mem_toFinset, List.mem_map, mem_stepSet]
  constructor
  · rintro ⟨c, hc, rfl⟩
    exact ⟨c, hc, v, Finset.mem_singleton_self v, rfl⟩
  · rintro ⟨c, hc, u, hu, rfl⟩
    rw [Finset.mem_singleton] at hu
    subst hu
    exact ⟨c, hc, rfl⟩

lemma expandCards_spec (target current : Int) (moves : Nat) :
    ∀ (cs : List Card) (q : List (Int × Nat)) (V : Finset Int),
      ∃ L : List Int,
        expandCards target current moves cs (q, V) =
            (q ++ L.map (fun x => (x, moves + 1)), V ∪ L.toFinset) ∧
          L.Nodup ∧ (∀ x ∈ L, x ∉ V) ∧
          L.toFinset =
            if moves < 8 then
              ((cs.map (fun c => current + delta c)).toFinset.filter
                  (fun x => |x| ≤ |target| + 15)) \ V
            else ∅ := by
  intro cs
  induction cs with
  | nil =>
    intro q V
    refine ⟨[], by simp [expandCards], List.nodup_nil, by simp, ?_⟩
    split
    · simp
    · simp
  | cons c cs ih =>
    intro q V
    by_cases hcond : current + delta c ∉ V ∧
        |current + delta c| ≤ |target| + 15 ∧ moves < 8
    · obtain ⟨L, heq, hnd, hfresh, hset⟩ :=
        ih (q ++ [(current + delta c, moves + 1)]) (insert (current + delta c) V)
      refine ⟨(current + delta c) :: L, ?_, ?_, ?_, ?_⟩
      · rw [expandCards, if_pos hcond, heq]
        simp only [Prod.mk.injEq]
        constructor
        · simp
        · rw [List.toFinset_cons, Finset.union_insert, Finset.insert_union]
      · refine List.nodup_cons.mpr ⟨fun hmem => ?_, hnd⟩
        exact hfresh _ hmem (Finset.mem_insert_self _ _)
      · intro x hx
        rcases List.mem_cons.mp hx with rfl | hx
        · exact hcond.1
        · exact fun hxV => hfresh x hx (Finset.mem_insert_of_mem hxV)
      · rw [if_pos hcond.2.2] at hset ⊢
        rw [List.toFinset_cons, hset]
        ext x
        simp only [Finset.mem_insert, Finset.mem_sdiff, Finset.mem_filter,
          List.mem_toFinset, List.mem_map, List.mem_cons, Finset.mem_insert]
        constructor
        · rintro (rfl | ⟨⟨⟨c', hc', rfl⟩, habs⟩, hnv⟩)
          · exact ⟨⟨⟨c, Or.inl rfl, rfl⟩, hcond.2.1⟩, hcond.1⟩
          · exact ⟨⟨⟨c', Or.inr hc', rfl⟩, habs⟩, fun hx => hnv (Or.inr hx)⟩
        · rintro ⟨⟨⟨c', hc' | hc', rfl⟩, habs⟩, hnv⟩
          · subst hc'
            exact Or.inl rfl
          · by_cases hx : current + delta c' = current + delta c
            · exact Or.inl hx
            · exact Or.inr ⟨⟨⟨c', hc', rfl⟩, habs⟩,
                fun hmem => (by
                  rcases hmem with hmem | hmem
                  · exact hx hmem
                  · exact hnv hmem)⟩
    · obtain ⟨L, heq, hnd, hfresh, hset⟩ := ih q V
      refine ⟨L, ?_, hnd, hfresh, ?_⟩
      · rw [expandCards, if_neg hcond, heq]
      · rw [hset]
        by_cases hm : moves < 8
        · rw [if_pos hm, if_pos hm]
          ext x
          simp only [Finset.mem_sdiff, Finset.mem_filter, List.mem_toFinset,
            List.mem_map, List.mem_cons]
          constructor
          · rintro ⟨⟨⟨c', hc', rfl⟩, habs⟩, hnv⟩
            exact ⟨⟨⟨c', Or.inr hc', rfl⟩, habs⟩, hnv⟩
          · rintro ⟨⟨⟨c', hc' | hc', rfl⟩, habs⟩, hnv⟩
            · subst hc'
              exact absurd ⟨hnv, habs, hm⟩ hcond
            · exact ⟨⟨⟨c', hc', rfl⟩, habs⟩, hnv⟩
        · rw [if_neg hm, if_neg hm]

lemma stepSet_union (deck : List Card) (A B : Finset Int) :
    stepSet deck (A ∪ B) = stepSet deck A ∪ stepSet deck B := by
  ext x
  simp only [Finset.mem_union, mem_stepSet]
  constructor
  · rintro ⟨c, hc, v, hv, rfl⟩
    rcases hv with h | h
    · exact Or.inl ⟨c, hc, v, h, rfl⟩
    · exact Or.inr ⟨c, hc, v, h, rfl⟩
  · rintro (⟨c, hc, v, hv, rfl⟩ | ⟨c, hc, v, hv, rfl⟩)
    · exact ⟨c, hc, v, Or.inl hv, rfl⟩
    · exact ⟨c, hc, v, Or.inr hv, rfl⟩

lemma stepSet_empty (deck : List Card) : stepSet deck (∅ : Finset Int) = ∅ := by
  ext x
  simp [mem_stepSet]

lemma map_fst_pair (m : Nat) (L : List Int) :
    (L.map (fun x => (x, m))).map Prod.fst = L := by
  induction L with
  | nil => rfl
  | cons a l ih => simp only [List.map_cons, ih]

lemma specMinMoves_eq_of_found (t : Int) (d : List Card) (m0 : Nat)
    (qa' qb : List (Int × Nat)) (V : Finset Int)
    (hinv : InvCore t d m0 ((t, m0) :: qa') qb V) :
    specMinMoves t d = m0 := by
  obtain ⟨h1, h2, h3, h4, h5, h6, h7, h8, h9⟩ := hinv
  have hmem : t ∈ reachSet t d m0 := (h6 t (by simp)).1
  have hmin : ∀ j < m0, t ∉ reachSet t d j := (h6 t (by simp)).2
  have hex : ∃ k, k ≤ 8 ∧ t ∈ reachSet t d k := ⟨m0, h3, hmem⟩
  rw [specMinMoves, dif_pos hex, Nat.find_eq_iff]
  exact ⟨⟨h3, hmem⟩, fun j hj hc => hmin j hj hc.2⟩

lemma specMinMoves_eq_of_empty (t : Int) (d : List Card) (m0 : Nat)
    (V : Finset Int) (hinv : InvCore t d m0 [] [] V) :
    specMinMoves t d = 1 := by
  obtain ⟨h1, h2, h3, h4, h5, h6, h7, h8, h9⟩ := hinv
  have hnot : t ∉ reachSet t d m0 := fun hmem => by simpa using h7 hmem
  have hall : ∀ k, k ≤ 8 → t ∉ reachSet t d k := by
    rcases Nat.lt_or_ge m0 8 with hm | hm
    · have hchar := h8 hm
      simp only [List.map_nil, List.toFinset_nil, Finset.sdiff_empty] at hchar
      have hsub : (stepSet d (reachSet t d m0)).filter
          (fun x => |x| ≤ |t| + 15) ⊆ reachSet t d m0 :=
        Finset.sdiff_eq_empty_iff_subset.mp hchar.symm
      have hfix : reachSet t d (m0 + 1) = reachSet t d m0 := by
        rw [reachSet_succ]
        exact Finset.union_eq_left.mpr hsub
      intro k hk hmem
      rcases Nat.lt_or_ge k m0 with hkm | hkm
      · exact hnot (reachSet_mono t d (by omega) hmem)
      · rw [reachSet_stab t d hfix k hkm] at hmem
        exact hnot hmem
    · intro k hk hmem
      exact hnot (reachSet_mono t d (by omega) hmem)
  rw [specMinMoves, dif_neg]
  rintro ⟨k, hk, hmem⟩
  exact hall k hk hmem

lemma invCore_shift (t : Int) (d : List Card) (m0 : Nat)
    (e : Int × Nat) (qb' : List (Int × Nat)) (V : Finset Int)
    (hinv : InvCore t d m0 [] (e :: qb') V) :
    InvCore t d (m0 + 1) (e :: qb') [] V := by
  obtain ⟨h1, h2, h3, h4, h5, h6, h7, h8, h9⟩ := hinv
  have hm : m0 < 8 := by
    rcases Nat.lt_or_ge m0 8 with hm | hm
    · exact hm
    · have h8' : m0 = 8 := by omega
      exact absurd (h9 h8') (by simp)
  have hchar := h8 hm
  simp only [List.map_nil, List.toFinset_nil, Finset.sdiff_empty] at hchar
  have hRsucc : reachSet t d (m0 + 1) =
      reachSet t d m0 ∪ ((e :: qb').map Prod.fst).toFinset := by
    rw [reachSet_succ, hchar, Finset.union_sdiff_self_eq_union]
  refine ⟨h2, by simp, by omega, by simpa using h4, ?_, ?_, ?_, ?_, by simp⟩
  · rw [h5, hRsucc]
    simp
  · intro x hx
    have hxqb : x ∈ ((e :: qb').map Prod.fst).toFinset :=
      List.mem_toFinset.mpr hx
    have hmem : x ∈ reachSet t d (m0 + 1) := by
      rw [hRsucc]
      exact Finset.mem_union_right _ hxqb
    have hnmem : x ∉ reachSet t d m0 := by
      rw [hchar] at hxqb
      exact (Finset.mem_sdiff.mp hxqb).2
    exact ⟨hmem, fun j hj hmemj =>
      hnmem (reachSet_mono t d (by omega) hmemj)⟩
  · intro hmem
    rw [hRsucc] at hmem
    rcases Finset.mem_union.mp hmem with hmem | hmem
    · exact absurd (h7 hmem) (by simp)
    · exact List.mem_toFinset.mp hmem
  · intro _
    simp only [List.map_nil, List.toFinset_nil]
    have hD : reachSet t d (m0 + 1) \ ((e :: qb').map Prod.fst).toFinset
        = reachSet t d m0 := by
      rw [hRsucc]
      ext x
      simp only [Finset.mem_sdiff, Finset.mem_union]
      constructor
      · rintro ⟨hx | hx, hnx⟩
        · exact hx
        · exact absurd hx hnx
      · intro hx
        refine ⟨Or.inl hx, fun hmemq => ?_⟩
        rw [hchar] at hmemq
        exact (Finset.mem_sdiff.mp hmemq).2 hx
    rw [hD]
    symm
    rw [Finset.sdiff_eq_empty_iff_subset, reachSet_succ]
    exact Finset.subset_union_right

lemma invCore_visited_subset (t : Int) (d : List Card) (m0 : Nat)
    (qa qb : List (Int × Nat)) (V : Finset Int)
    (hinv : InvCore t d m0 qa qb V) : V ⊆ boundSet t := by
  obtain ⟨h1, h2, h3, h4, h5, h6, h7, h8, h9⟩ := hinv
  rw [h5]
  intro x hx
  rcases Finset.mem_union.mp hx with hx | hx
  · exact reachSet_subset_boundSet t d m0 hx
  · rcases Nat.lt_or_ge m0 8 with hm | hm
    · rw [h8 hm] at hx
      exact mem_boundSet.mpr
        (Finset.mem_filter.mp (Finset.mem_sdiff.mp hx).1).2
    · have h8' : m0 = 8 := by omega
      rw [h9 h8'] at hx
      simp at hx

lemma invCore_preserved (t : Int) (d : List Card) (m0 : Nat) (v : Int)
    (qa' qb : List (Int × Nat)) (V : Finset Int) (L : List Int)
    (hinv : InvCore t d m0 ((v, m0) :: qa') qb V)
    (hvt : v ≠ t) (hnd : L.Nodup) (hfresh : ∀ x ∈ L, x ∉ V)
    (hset : L.toFinset =
      if m0 < 8 then
        (stepSet d {v}).filter (fun x => |x| ≤ |t| + 15) \ V
      else ∅) :
    InvCore t d m0 qa' (qb ++ L.map (fun x => (x, m0 + 1)))
      (V ∪ L.toFinset) := by
  obtain ⟨h1, h2, h3, h4, h5, h6, h7, h8, h9⟩ := hinv
  have hvR : v ∈ reachSet t d m0 := (h6 v (by simp)).1
  have hnodup' : (v :: ((qa' ++ qb).map Prod.fst)).Nodup := by
    simpa using h4
  have hvq : v ∉ (qa' ++ qb).map Prod.fst :=
    (List.nodup_cons.mp hnodup').1
  have htail : ((qa' ++ qb).map Prod.fst).Nodup :=
    (List.nodup_cons.mp hnodup').2
  have hqa'sub : ∀ x ∈ qa'.map Prod.fst, x ∈ reachSet t d m0 ∧
      ∀ j < m0, x ∉ reachSet t d j := by
    intro x hx
    exact h6 x (by simp [hx])
  have hqV : ∀ x ∈ (qa' ++ qb).map Prod.fst, x ∈ V := by
    intro x hx
    rw [List.map_append, List.mem_append] at hx
    rcases hx with hx | hx
    · rw [h5]
      exact Finset.mem_union_left _ ((hqa'sub x hx).1)
    · rw [h5]
      exact Finset.mem_union_right _ (List.mem_toFinset.mpr hx)
  refine ⟨fun e he => h1 e (by simp [he]), ?_, h3, ?_, ?_, hqa'sub, ?_, ?_, ?_⟩
  · intro e he
    rcases List.mem_append.mp he with he | he
    · exact h2 e he
    · obtain ⟨x, _, rfl⟩ := List.mem_map.mp he
      rfl
  · -- Nodup of the new queue values
    have hmapL := map_fst_pair (m0 + 1) L
    have : ((qa' ++ (qb ++ L.map (fun x => (x, m0 + 1)))).map Prod.fst)
        = ((qa' ++ qb).map Prod.fst) ++ L := by
      simp only [List.map_append, hmapL, List.append_assoc]
    rw [this]
    refine List.Nodup.append htail hnd ?_
    intro x hx hxL
    exact hfresh x hxL (hqV x hx)
  · -- new visited set
    have hmapL := map_fst_pair (m0 + 1) L
    rw [h5, List.map_append, hmapL, List.toFinset_append,
      Finset.union_assoc]
  · -- target clause
    intro hmem
    have := h7 hmem
    simp only [List.map_cons, List.mem_cons] at this
    rcases this with h | h
    · exact absurd h.symm hvt
    · exact h
  · -- characterization of the new qb
    intro hm
    have hchar := h8 hm
    have hLset := hset
    rw [if_pos hm] at hLset
    have hvqa' : v ∉ qa'.map Prod.fst := by
      intro hc
      exact hvq (by rw [List.map_append, List.mem_append]; exact Or.inl hc)
    have hD : reachSet t d m0 \ (qa'.map Prod.fst).toFinset =
        (reachSet t d m0 \ (((v, m0) :: qa').map Prod.fst).toFinset) ∪ {v} := by
      ext x
      simp only [Finset.mem_union, Finset.mem_sdiff, Finset.mem_singleton,
        List.map_cons, List.toFinset_cons, Finset.mem_insert,
        List.mem_toFinset]
      constructor
      · rintro ⟨hxR, hxq⟩
        by_cases hxv : x = v
        · exact Or.inr hxv
        · exact Or.inl ⟨hxR, fun h => by
            rcases h with h | h
            · exact hxv h
            · exact hxq (List.mem_toFinset.mp (List.mem_toFinset.mpr h))⟩
      · rintro (⟨hxR, hxq⟩ | rfl)
        · exact ⟨hxR, fun h => hxq (Or.inr h)⟩
        · exact ⟨hvR, hvqa'⟩
    have hmapL := map_fst_pair (m0 + 1) L
    rw [List.map_append, hmapL, List.toFinset_append, hchar, hLset, hD,
      stepSet_union, Finset.filter_union, Finset.union_sdiff_distrib, h5]
    ext x
    simp only [Finset.mem_union, Finset.mem_sdiff]
    constructor
    · rintro (⟨hx, hnx⟩ | ⟨hx, hnx⟩)
      · exact Or.inl ⟨hx, hnx⟩
      · exact Or.inr ⟨hx, fun hc => hnx (Or.inl hc)⟩
    · rintro (⟨hx, hnx⟩ | ⟨hx, hnx⟩)
      · exact Or.inl ⟨hx, hnx⟩
      · by_cases hxA : x ∈ (stepSet d (reachSet t d m0 \
            (((v, m0) :: qa').map Prod.fst).toFinset)).filter
            (fun x => |x| ≤ |t| + 15)
        · exact Or.inl ⟨hxA, hnx⟩
        · refine Or.inr ⟨hx, fun hc => ?_⟩
          rcases hc with hc | hc
          · exact hnx hc
          · rw [hchar] at hc
            exact hxA (Finset.mem_sdiff.mp hc).1
    -- the remaining equalities close by rfl
  · -- depth-8 case: nothing is enqueued
    intro h8'
    have hqb := h9 h8'
    have hLset := hset
    rw [if_neg (by omega)] at hLset
    have hL : L = [] := List.toFinset_eq_empty_iff L |>.mp hLset
    rw [hqb, hL]
    rfl

lemma invCore_initial (t : Int) (d : List Card) :
    InvCore t d 0 [(0, 0)] [] ({0} : Finset Int) := by
  refine ⟨by simp, by simp, by omega, by simp, ?_, ?_, ?_, ?_, by simp⟩
  · rw [reachSet_zero]
    simp
  · intro x hx
    simp only [List.map_cons, List.map_nil, List.mem_singleton] at hx
    subst hx
    exact ⟨by rw [reachSet_zero]; simp, fun j hj => absurd hj (by omega)⟩
  · intro hmem
    rw [reachSet_zero] at hmem
    simp at hmem
    simp [hmem]
  · intro _
    simp only [List.map_cons, List.map_nil, List.toFinset_cons,
      List.toFinset_nil, List.map_nil]
    rw [reachSet_zero]
    have : ({0} : Finset Int) \ insert 0 (∅ : Finset Int) = ∅ := by
      ext x
      simp
    rw [this, stepSet_empty]
    simp

lemma bfsAux_eq_specMinMoves (t : Int) (d : List Card) :
    ∀ (fuel m0 : Nat) (qa qb : List (Int × Nat)) (V : Finset Int),
      InvCore t d m0 qa qb V →
      queueMeasure t (qa ++ qb) V < fuel →
      bfsAux t d fuel (qa ++ qb) V = some (specMinMoves t d) := by
  intro fuel
  induction fuel with
  | zero =>
    intro m0 qa qb V _ hfuel
    exact absurd hfuel (Nat.not_lt_zero _)
  | succ fuel ih =>
    have key : ∀ (m0 : Nat) (v : Int) (qa' qb : List (Int × Nat))
        (V : Finset Int),
        InvCore t d m0 ((v, m0) :: qa') qb V →
        queueMeasure t (((v, m0) :: qa') ++ qb) V < fuel + 1 →
        bfsAux t d (fuel + 1) (((v, m0) :: qa') ++ qb) V
          = some (specMinMoves t d) := by
      intro m0 v qa' qb V hinv hfuel
      rw [List.cons_append, bfsAux]
      by_cases hvt : v = t
      · rw [if_pos hvt]
        subst hvt
        rw [specMinMoves_eq_of_found v d m0 qa' qb V hinv]
      · rw [if_neg hvt]
        obtain ⟨L, heq, hnd, hfresh, hset⟩ :=
          expandCards_spec t v m0 d (qa' ++ qb) V
        have hset' : L.toFinset =
            if m0 < 8 then
              (stepSet d {v}).filter (fun x => |x| ≤ |t| + 15) \ V
            else ∅ := by
          rw [hset, map_add_toFinset_eq_stepSet]
        have hinv' := invCore_preserved t d m0 v qa' qb V L hinv hvt hnd
          hfresh hset'
        have hVsub := invCore_visited_subset t d m0 ((v, m0) :: qa') qb V hinv
        have hVLsub : V ∪ L.toFinset ⊆ boundSet t := by
          apply Finset.union_subset hVsub
          rw [hset']
          split
          · intro x hx
            exact mem_boundSet.mpr
              (Finset.mem_filter.mp (Finset.mem_sdiff.mp hx).1).2
          · intro x hx
            simp at hx
        have hdisj : Disjoint V L.toFinset := by
          rw [Finset.disjoint_right]
          intro x hx
          exact hfresh x (List.mem_toFinset.mp hx)
        have hcard : (V ∪ L.toFinset).card = V.card + L.length := by
          rw [Finset.card_union_of_disjoint hdisj,
            List.toFinset_card_of_nodup hnd]
        have hfuel' : queueMeasure t (qa' ++ (qb ++ L.map (fun x => (x, m0 + 1))))
            (V ∪ L.toFinset) < fuel := by
          have hVC : V.card ≤ (boundSet t).card := Finset.card_le_card hVsub
          have hVLC : (V ∪ L.toFinset).card ≤ (boundSet t).card :=
            Finset.card_le_card hVLsub
          have hlen : (qa' ++ (qb ++ L.map (fun x => (x, m0 + 1)))).length
              = (qa' ++ qb).length + L.length := by
            simp only [List.length_append, List.length_map]
            omega
          unfold queueMeasure at hfuel ⊢
          rw [hlen, hcard]
          rw [List.cons_append, List.length_cons] at hfuel
          omega
        have hres := ih m0 qa' (qb ++ L.map (fun x => (x, m0 + 1)))
          (V ∪ L.toFinset) hinv' hfuel'
        rw [heq]
        simp only [List.append_assoc] at hres ⊢
        exact hres
    intro m0 qa qb V hinv hfuel
    rcases qa with _ | ⟨⟨v, m⟩, qa'⟩
    · rcases qb with _ | ⟨⟨x, m⟩, qb'⟩
      · rw [List.nil_append, bfsAux,
          specMinMoves_eq_of_empty t d m0 V hinv]
      · have hm : m = m0 + 1 := hinv.2.1 (x, m) (by simp)
        subst hm
        have hinv' := invCore_shift t d m0 (x, m0 + 1) qb' V hinv
        have h := key (m0 + 1) x qb' [] V hinv' (by
          rw [List.nil_append] at hfuel
          simpa using hfuel)
        rw [List.nil_append]
        simpa using h
    · have hm : m = m0 := hinv.1 (v, m) (by simp)
      subst hm
      exact key m v qa' qb V hinv hfuel

/-- The queue-based search computes exactly the specification value:
the least `k ≤ 8` at which the target is reachable within the bound,
or the fallback 1. -/
theorem calculateMinMoves_eq_specMinMoves (t : Int) (d : List Card) :
    calculateMinMoves t d = specMinMoves t d := by
  have hC : (boundSet t).card = 2 * (t.natAbs + 15) + 1 := by
    rw [boundSet, Int.card_Icc]
    simp only [Int.abs_eq_natAbs]
    omega
  have hfin : queueMeasure t ([(0, 0)] ++ []) ({0} : Finset Int)
      < searchFuel t := by
    unfold queueMeasure searchFuel
    rw [hC, Finset.card_singleton]
    simp only [List.append_nil, List.length_singleton]
    omega
  have h := bfsAux_eq_specMinMoves t d (searchFuel t) 0 [(0, 0)] []
    ({0} : Finset Int) (invCore_initial t d) hfin
  rw [List.append_nil] at h
  rw [calculateMinMoves, h]
  rfl

lemma sumDeltas_append (p : List Card) (c : Card) :
    sumDeltas (p ++ [c]) = sumDeltas p + delta c := by
  simp [sumDeltas]

lemma okPath_nil (t : Int) (d : List Card) : okPath t d [] := by
  refine ⟨by simp, ?_⟩
  intro k hk
  simp only [List.length_nil, Nat.le_zero] at hk
  subst hk
  simp only [List.take_nil, sumDeltas, List.map_nil, List.sum_nil, abs_zero]
  positivity

lemma exists_path_of_mem_reachSet (t : Int) (d : List Card) :
    ∀ k x, x ∈ reachSet t d k →
      ∃ p, okPath t d p ∧ p.length ≤ k ∧ sumDeltas p = x := by
  intro k
  induction k with
  | zero =>
    intro x hx
    rw [reachSet_zero, Finset.mem_singleton] at hx
    subst hx
    exact ⟨[], okPath_nil t d, by simp, rfl⟩
  | succ k ih =>
    intro x hx
    rw [reachSet_succ] at hx
    rcases Finset.mem_union.mp hx with hx | hx
    · obtain ⟨p, hp, hlen, hsum⟩ := ih x hx
      exact ⟨p, hp, by omega, hsum⟩
    · obtain ⟨hstep, habs⟩ := Finset.mem_filter.mp hx
      obtain ⟨c, hc, v, hv, rfl⟩ := mem_stepSet.mp hstep
      obtain ⟨p, hp, hlen, hsum⟩ := ih v hv
      refine ⟨p ++ [c], ⟨?_, ?_⟩, by simp; omega,
        by rw [sumDeltas_append, hsum]⟩
      · intro c' hc'
        rcases List.mem_append.mp hc' with h | h
        · exact hp.1 c' h
        · rw [List.mem_singleton] at h
          subst h
          exact hc
      · intro j hj
        rw [List.length_append, List.length_singleton] at hj
        rcases Nat.lt_or_ge j (p.length + 1) with hj' | hj'
        · have hj'' : j ≤ p.length := by omega
          rw [List.take_append_of_le_length hj'']
          exact hp.2 j hj''
        · have hj'' : j = p.length + 1 := by omega
          subst hj''
          rw [List.take_of_length_le (by simp), sumDeltas_append, hsum]
          exact habs

lemma mem_reachSet_of_path (t : Int) (d : List Card) :
    ∀ k p, okPath t d p → p.length ≤ k → sumDeltas p ∈ reachSet t d k := by
  intro k
  induction k with
  | zero =>
    intro p hp hlen
    have hnil : p = [] := List.length_eq_zero.mp (by omega)
    subst hnil
    rw [reachSet_zero]
    simp [sumDeltas]
  | succ k ih =>
    intro p hp hlen
    rcases Nat.lt_or_ge p.length (k + 1) with hl | hl
    · exact reachSet_subset_succ t d k (ih p hp (by omega))
    · rcases List.eq_nil_or_concat p with rfl | ⟨q, c, hqc⟩
      · simp at hl
      · rw [List.concat_eq_append] at hqc
        subst hqc
        have hq : okPath t d q := by
          refine ⟨fun c' hc' => hp.1 c' (List.mem_append.mpr (Or.inl hc')), ?_⟩
          intro j hj
          have hj2 := hp.2 j (by rw [List.length_append]; omega)
          rwa [List.take_append_of_le_length hj] at hj2
        have hqlen : q.length ≤ k := by
          rw [List.length_append, List.length_singleton] at hlen
          omega
        have hv := ih q hq hqlen
        have hcmem : c ∈ d := hp.1 c (by simp)
        have habs : |sumDeltas (q ++ [c])| ≤ |t| + 15 := by
          have hfull := hp.2 (q ++ [c]).length le_rfl
          rwa [List.take_length] at hfull
        rw [reachSet_succ]
        apply Finset.mem_union_right
        rw [Finset.mem_filter]
        refine ⟨?_, habs⟩
        rw [mem_stepSet]
        exact ⟨c, hcmem, sumDeltas q, hv, by rw [sumDeltas_append]⟩

/-- C6: the solver result is a non-negative count, and for target 0 it
is 0 for every deck: the initial state (sum 0, 0 moves) is dequeued
first and matches the target immediately. -/
theorem calculateMinMoves_nonneg_and_zero :
    (∀ (t : Int) (d : List Card), 0 ≤ calculateMinMoves t d) ∧
      ∀ d : List Card, calculateMinMoves 0 d = 0 := by
  refine ⟨fun t d => Nat.zero_le _, fun d => ?_⟩
  rw [calculateMinMoves_eq_specMinMoves]
  have hex : ∃ k, k ≤ 8 ∧ (0 : Int) ∈ reachSet 0 d k :=
    ⟨0, by omega, by rw [reachSet_zero]; simp⟩
  rw [specMinMoves, dif_pos hex, Nat.find_eq_zero]
  exact ⟨by omega, by rw [reachSet_zero]; simp⟩

/-- C10: for every target and deck the solver result is at most 8:
found results are bounded by the depth cutoff and the exhaustion
fallback is 1, so the result always lies in [0, 8]. -/
theorem calculateMinMoves_le_eight (t : Int) (d : List Card) :
    calculateMinMoves t d ≤ 8 := by
  rw [calculateMinMoves_eq_specMinMoves]
  by_cases h : ∃ k, k ≤ 8 ∧ t ∈ reachSet t d k
  · rw [specMinMoves, dif_pos h]
    exact (Nat.find_spec h).1
  · rw [specMinMoves, dif_neg h]
    omega

/-- C2: when no admissible play sequence of at most 8 cards reaches the
target — the bounded search space is exhausted, the queue empties
without any dequeued sum equalling the target — calculateMinMoves
returns the fallback 1, so the caller cannot distinguish this outcome
from a genuine one-move solution. -/
theorem calculateMinMoves_exhausted_returns_one (t : Int) (d : List Card)
    (h : ∀ p : List Card, okPath t d p → p.length ≤ 8 → sumDeltas p ≠ t) :
    calculateMinMoves t d = 1 := by
  rw [calculateMinMoves_eq_specMinMoves, specMinMoves, dif_neg]
  rintro ⟨k, hk, hmem⟩
  obtain ⟨p, hp, hlen, hsum⟩ := exists_path_of_mem_reachSet t d k t hmem
  exact h p hp (by omega) hsum

theorem calculateMinMoves_exhausted_returns_one_witness :
    calculateMinMoves 3 [⟨CardType.matter, 2⟩] = 1 :=
  calculateMinMoves_exhausted_returns_one 3 [⟨CardType.matter, 2⟩]
    (fun p hp hlen hsum => by
      have hmem := mem_reachSet_of_path 3 [⟨CardType.matter, 2⟩] 8 p hp hlen
      rw [hsum] at hmem
      exact absurd hmem (by decide))

/-- C1: whenever the target is reachable from 0 by some sequence of at
most 8 card applications from the 3-card deck whose partial sums stay
within the magnitude bound, calculateMinMoves returns the minimum
length of such a sequence: its result is realized by an admissible
sequence, and no admissible sequence of at most 8 cards reaching the
target is shorter. -/
theorem calculateMinMoves_optimal (t : Int) (d : List Card)
    (hd : d.length = 3) (p₀ : List Card)
    (h₀ : okPath t d p₀ ∧ p₀.length ≤ 8 ∧ sumDeltas p₀ = t) :
    (∃ p, okPath t d p ∧ sumDeltas p = t ∧
        p.length = calculateMinMoves t d) ∧
      ∀ p, okPath t d p → p.length ≤ 8 → sumDeltas p = t →
        calculateMinMoves t d ≤ p.length := by
  obtain ⟨hp₀, hlen₀, hsum₀⟩ := h₀
  have hmem₀ : t ∈ reachSet t d p₀.length := by
    have h := mem_reachSet_of_path t d p₀.length p₀ hp₀ le_rfl
    rwa [hsum₀] at h
  have hex : ∃ k, k ≤ 8 ∧ t ∈ reachSet t d k := ⟨p₀.length, hlen₀, hmem₀⟩
  have hspec : calculateMinMoves t d = Nat.find hex := by
    rw [calculateMinMoves_eq_specMinMoves, specMinMoves, dif_pos hex]
  constructor
  · obtain ⟨hk8, hkmem⟩ := Nat.find_spec hex
    obtain ⟨p, hp, hplen, hpsum⟩ :=
      exists_path_of_mem_reachSet t d (Nat.find hex) t hkmem
    refine ⟨p, hp, hpsum, ?_⟩
    have hge : Nat.find hex ≤ p.length := Nat.find_le ⟨by omega, by
      have h := mem_reachSet_of_path t d p.length p hp le_rfl
      rwa [hpsum] at h⟩
    omega
  · intro p hp hlen hsum
    rw [hspec]
    exact Nat.find_le ⟨hlen, by
      have h := mem_reachSet_of_path t d p.length p hp le_rfl
      rwa [hsum] at h⟩

theorem calculateMinMoves_optimal_witness :
    calculateMinMoves 5
      [⟨CardType.antimatter, 1⟩, ⟨CardType.matter, 2⟩,
        ⟨CardType.matter, 3⟩] ≤ 2 :=
  (calculateMinMoves_optimal 5
      [⟨CardType.antimatter, 1⟩, ⟨CardType.matter, 2⟩,
        ⟨CardType.matter, 3⟩] rfl
      [⟨CardType.matter, 2⟩, ⟨CardType.matter, 3⟩]
      ⟨by decide, by decide, by decide⟩).2
    [⟨CardType.matter, 2⟩, ⟨CardType.matter, 3⟩] (by decide) (by decide)
    (by decide)

/-- C3 (the claim describes the intended, fixed behavior; the code has
the sentinel bug): with a deck whose only card has magnitude 5 and
target 7, the target is unreachable within the bounds — 7 is not among
the sums reachable in at most 8 moves — yet calculateMinMoves returns
the sentinel 1 instead of a result distinct from every genuine move
count. -/
theorem calculateMinMoves_sentinel_bug :
    calculateMinMoves 7 [⟨CardType.matter, 5⟩] = 1 ∧
      (7 : Int) ∉ reachSet 7 [⟨CardType.matter, 5⟩] 8 := by
  exact ⟨by decide, by decide⟩

end ReactorCore
